import Mathlib

/-!
Verification of the order-2 Markov dictionary builder
(`friendM/create_markov_dict.py`).

The script assembles token sequences with boundary and link sentinels,
extracts sliding-window triplets, builds a lexicographically sorted word
list, packs each 2-token context `(id1, id2)` into the 64-bit key
`(id1 << 32) | id2`, accumulates successor identifiers per key in a
`defaultdict(list)`, and emits two artifacts: the word list and a compact
dictionary (a sorted start-identifier line followed by one line per sorted
key holding the sorted, deduplicated successor identifiers).

This file embeds that pipeline shallowly: Python's `sorted` over strings is
code-point lexicographic order, modelled by an executable comparison on
`String.data`; Python `set`s followed by `sorted` are modelled by
`List.dedup` followed by `List.insertionSort`.
-/

/-! ### Code-point lexicographic order on tokens (Python string `sorted`) -/

/-- Lexicographic comparison of character lists by code point,
the order Python's `sorted` uses on strings. -/
def charListLe : List Char → List Char → Bool
  | [], _ => true
  | _ :: _, [] => false
  | a :: as, b :: bs =>
    if a.val.toNat < b.val.toNat then true
    else if b.val.toNat < a.val.toNat then false
    else charListLe as bs

/-- Code-point lexicographic order on strings. -/
def StrLE (s t : String) : Prop := charListLe s.data t.data = true

instance decStrLE : DecidableRel StrLE := fun s t =>
  Bool.decEq (charListLe s.data t.data) true

/-! ### Sentinel and link tokens (source lines 113-115, 119, 129) -/

def BOS : String := "@BOS@"

def EOS : String := "@EOS@"

def LINK_TOKEN_RC : String := "__LINK_Response_Content__"

def LINK_TOKEN_CT : String := "__LINK_Content_Transition__"

def LINK_TOKEN_TE : String := "__LINK_Transition_End__"

/-- The five tokens seeded into `all_words` (source line 129). -/
def sentinelTokens : List String := [BOS, EOS, LINK_TOKEN_RC, LINK_TOKEN_CT, LINK_TOKEN_TE]

abbrev Triplet := String × String × String

/-! ### Token sequence assembly and triplet extraction (source lines 117-126) -/

/-- The assembled sequence
`["@BOS@"] + res_words + [LINK_RC] + con_words + [LINK_CT] + tra_words + [LINK_TE] + ["@EOS@"]`
(source line 119). -/
def fullSequence (res_words con_words tra_words : List String) : List String :=
  [BOS] ++ res_words ++ [LINK_TOKEN_RC] ++ con_words ++ [LINK_TOKEN_CT] ++
    tra_words ++ [LINK_TOKEN_TE] ++ [EOS]

/-- Sliding window of width 3: the loop `for i in range(len(full_sequence) - 2)`
guarded by `if len(full_sequence) < 3: continue` (source lines 121-126). -/
def extractTriplets (seq : List String) : List Triplet :=
  if seq.length < 3 then []
  else (List.range (seq.length - 2)).map fun i =>
    (seq.getD i "", seq.getD (i + 1) "", seq.getD (i + 2) "")

/-- `all_triplets` accumulated over every sentence part (source lines 117-126). -/
def all_triplets (parts : List (List String × List String × List String)) : List Triplet :=
  parts.flatMap fun p => extractTriplets (fullSequence p.1 p.2.1 p.2.2)

/-! ### Vocabulary (source lines 128-136) -/

/-- The three words of a triplet, as added to `all_words` (source lines 130-133). -/
def tripletWords (trip : Triplet) : List String := [trip.1, trip.2.1, trip.2.2]

/-- `all_words`: the set seeded with the five sentinels and closed under the
words of every triplet (source lines 129-133).  A Python `set` is modelled as
a duplicate-free list. -/
def all_words (triplets : List Triplet) : List String :=
  (sentinelTokens ++ triplets.flatMap tripletWords).dedup

/-- `id_to_word = sorted(list(all_words))` (source line 135). -/
def id_to_word (triplets : List Triplet) : List String :=
  List.insertionSort StrLE (all_words triplets)

/-- `word_to_id = {word: i for i, word in enumerate(id_to_word)}` (source line 136):
the identifier of a word is its index in the sorted word list. -/
def word_to_id (triplets : List Triplet) (w : String) : Nat :=
  (id_to_word triplets).indexOf w

/-! ### Context-key packing (source lines 150, 169-170) -/

/-- `long_key = (id1 << 32) | id2` (source line 150). -/
def pack (id1 id2 : Nat) : Nat := (id1 <<< 32) ||| id2

/-- `id1 = key >> 32` (source line 169). -/
def unpackHigh (key : Nat) : Nat := key >>> 32

/-- `id2 = key & 0xFFFFFFFF` (source line 170). -/
def unpackLow (key : Nat) : Nat := key &&& 0xFFFFFFFF

/-- Unpacking a key into its two components (source lines 169-170). -/
def unpack (key : Nat) : Nat × Nat := (unpackHigh key, unpackLow key)

/-! ### Transition table and start set (source lines 138-151) -/

/-- The `(long_key, id3)` pairs appended to `int_markov_data`, in corpus order
(source lines 142-151).  A `defaultdict(list)` of appends is exactly this
association list. -/
def int_markov_data (triplets : List Triplet) : List (Nat × Nat) :=
  triplets.map fun trip =>
    (pack (word_to_id triplets trip.1) (word_to_id triplets trip.2.1),
     word_to_id triplets trip.2.2)

/-- `int_markov_data[key]`: the list of successor identifiers appended under
`key`, in append order with duplicates retained (source line 151). -/
def tableValues (triplets : List Triplet) (key : Nat) : List Nat :=
  ((int_markov_data triplets).filter fun e => e.1 == key).map Prod.snd

/-- `start_word_ids`: the set of `word_to_id[w2]` over triplets whose first
word is the start sentinel (source lines 143-144). -/
def start_word_ids (triplets : List Triplet) : List Nat :=
  ((triplets.filter fun trip => trip.1 == BOS).map
    fun trip => word_to_id triplets trip.2.1).dedup

/-! ### Compact dictionary emission (source lines 163-173) -/

/-- `sorted_keys = sorted(int_markov_data.keys())` (source line 166). -/
def sorted_keys (triplets : List Triplet) : List Nat :=
  List.insertionSort (fun a b => a ≤ b) ((int_markov_data triplets).map Prod.fst).dedup

/-- `sorted(list(set(value_ids)))` (source line 172). -/
def value_ids_sorted (triplets : List Triplet) (key : Nat) : List Nat :=
  List.insertionSort (fun a b => a ≤ b) (tableValues triplets key).dedup

/-- The structured content of one emitted line `id1,id2|v1,v2,...`
(source lines 169-173). -/
def keyLine (triplets : List Triplet) (key : Nat) : Nat × Nat × List Nat :=
  (unpackHigh key, unpackLow key, value_ids_sorted triplets key)

/-- The structured content of the emitted compact dictionary: the sorted
start-identifier line, then one line per sorted key. -/
structure CompactDict where
  startLine : List Nat
  keyLines : List (Nat × Nat × List Nat)
deriving DecidableEq

/-- The emitted compact dictionary (source lines 163-173). -/
def compactDict (triplets : List Triplet) : CompactDict :=
  ⟨List.insertionSort (fun a b => a ≤ b) (start_word_ids triplets),
   (sorted_keys triplets).map (keyLine triplets)⟩

/-- Modelled from the spec: the decoder for the compact dictionary is not part
of this repository (the runtime consumer is external), so it follows the
spec's words — look up the line whose two leading identifiers are the word
list indices of the two context tokens, and map its successor identifiers
back through the word list. -/
def decodeSuccessors (wl : List String) (d : CompactDict) (a b : String) : List String :=
  match d.keyLines.find? fun l => l.1 == wl.indexOf a && l.2.1 == wl.indexOf b with
  | some l => l.2.2.map fun v => wl.getD v ""
  | none => []

/-! ### Concrete demonstration corpora (used by witnesses) -/

/-- One sentence part: response `["hi"]`, content `["cat", "sat"]`,
transition `["bye"]`. -/
def demoParts : List (List String × List String × List String) :=
  [(["hi"], ["cat", "sat"], ["bye"])]

/-- The triplets extracted from `demoParts`. -/
def demoTriplets : List Triplet := all_triplets demoParts

/-- A corpus containing the same triplet twice. -/
def dupTriplets : List Triplet := [("a", "b", "c"), ("a", "b", "c")]

/-- A triplet multiset, in one insertion order. -/
def permTripletsA : List Triplet :=
  [("a", "b", "c"), ("b", "c", "d"), ("a", "b", "d"), ("a", "b", "c")]

/-- The same triplet multiset as `permTripletsA`, in another insertion order. -/
def permTripletsB : List Triplet :=
  [("a", "b", "d"), ("a", "b", "c"), ("a", "b", "c"), ("b", "c", "d")]

/-! ### The token order is total, transitive and antisymmetric -/

theorem charListLe_total : ∀ as bs : List Char,
    charListLe as bs = true ∨ charListLe bs as = true
  | [], _ => Or.inl rfl
  | _ :: _, [] => Or.inr rfl
  | a :: as, b :: bs => by
    rcases Nat.lt_trichotomy a.val.toNat b.val.toNat with h | h | h
    · left; simp [charListLe, h]
    · rcases charListLe_total as bs with ih | ih
      · left; simp [charListLe, h, ih]
      · right; simp [charListLe, h, ih]
    · right; simp [charListLe, h]

theorem charListLe_trans : ∀ as bs cs : List Char,
    charListLe as bs = true → charListLe bs cs = true → charListLe as cs = true
  | [], _, _, _, _ => rfl
  | _ :: _, [], _, h, _ => by simp [charListLe] at h
  | _ :: _, _ :: _, [], _, h => by simp [charListLe] at h
  | a :: as, b :: bs, c :: cs, h1, h2 => by
    simp only [charListLe] at h1 h2 ⊢
    rcases Nat.lt_trichotomy b.val.toNat a.val.toNat with hba | hba | hba
    · rw [if_neg (by omega), if_pos hba] at h1
      exact Bool.noConfusion h1
    · rcases Nat.lt_trichotomy c.val.toNat b.val.toNat with hcb | hcb | hcb
      · rw [if_neg (by omega), if_pos hcb] at h2
        exact Bool.noConfusion h2
      · rw [if_neg (by omega), if_neg (by omega)] at h1
        rw [if_neg (by omega), if_neg (by omega)] at h2
        rw [if_neg (by omega), if_neg (by omega)]
        exact charListLe_trans as bs cs h1 h2
      · rw [if_pos (by omega)]
    · rcases Nat.lt_trichotomy c.val.toNat b.val.toNat with hcb | hcb | hcb
      · rw [if_neg (by omega), if_pos hcb] at h2
        exact Bool.noConfusion h2
      · rw [if_pos (by omega)]
      · rw [if_pos (by omega)]

theorem char_eq_of_toNat_eq {a b : Char} (h : a.val.toNat = b.val.toNat) : a = b := by
  apply Char.ext
  cases hv : a.val; cases hw : b.val
  congr 1
  apply BitVec.eq_of_toNat_eq
  rw [hv, hw] at h
  exact h

theorem charListLe_antisymm : ∀ as bs : List Char,
    charListLe as bs = true → charListLe bs as = true → as = bs
  | [], [], _, _ => rfl
  | [], _ :: _, _, h => by simp [charListLe] at h
  | _ :: _, [], h, _ => by simp [charListLe] at h
  | a :: as, b :: bs, h1, h2 => by
    simp only [charListLe] at h1 h2
    rcases Nat.lt_trichotomy a.val.toNat b.val.toNat with hab | hab | hab
    · rw [if_neg (by omega), if_pos hab] at h2
      exact Bool.noConfusion h2
    · have ha : a = b := char_eq_of_toNat_eq hab
      subst ha
      rw [if_neg (by omega), if_neg (by omega)] at h1
      rw [if_neg (by omega), if_neg (by omega)] at h2
      rw [charListLe_antisymm as bs h1 h2]
    · rw [if_neg (by omega), if_pos hab] at h1
      exact Bool.noConfusion h1

instance : IsTotal String StrLE :=
  ⟨fun s t => charListLe_total s.data t.data⟩

instance : IsTrans String StrLE :=
  ⟨fun s t u => charListLe_trans s.data t.data u.data⟩

instance : IsAntisymm String StrLE :=
  ⟨fun s t h1 h2 => String.ext (charListLe_antisymm s.data t.data h1 h2)⟩


/-! ### Packing arithmetic -/

theorem lor_shiftRight (a b n : Nat) : (a ||| b) >>> n = (a >>> n) ||| (b >>> n) := by
  refine Nat.eq_of_testBit_eq fun i => ?_
  simp [Nat.testBit_shiftRight, Nat.testBit_lor]

theorem lor_land (a b m : Nat) : (a ||| b) &&& m = (a &&& m) ||| (b &&& m) := by
  refine Nat.eq_of_testBit_eq fun i => ?_
  simp [Nat.testBit_land, Nat.testBit_lor, Bool.and_or_distrib_right]

theorem mask_eq : (0xFFFFFFFF : Nat) = 2 ^ 32 - 1 := by norm_num

theorem unpackHigh_pack (a b : Nat) (h : b < 2 ^ 32) : unpackHigh (pack a b) = a := by
  unfold unpackHigh pack
  rw [lor_shiftRight, Nat.shiftLeft_eq, Nat.shiftRight_eq_div_pow, Nat.shiftRight_eq_div_pow,
    Nat.div_eq_of_lt h]
  simp

theorem unpackLow_pack (a b : Nat) (h : b < 2 ^ 32) : unpackLow (pack a b) = b := by
  unfold unpackLow pack
  rw [lor_land, mask_eq, Nat.and_pow_two_sub_one_eq_mod, Nat.and_pow_two_sub_one_eq_mod,
    Nat.shiftLeft_eq, Nat.mul_mod_left, Nat.mod_eq_of_lt h]
  simp

theorem unpack_pack (a b : Nat) (h : b < 2 ^ 32) : unpack (pack a b) = (a, b) := by
  unfold unpack
  rw [unpackHigh_pack a b h, unpackLow_pack a b h]

theorem pack_eq_add (a b : Nat) (h : b < 2 ^ 32) : pack a b = a * 2 ^ 32 + b := by
  have hh := unpackHigh_pack a b h
  have hl := unpackLow_pack a b h
  unfold unpackHigh at hh
  unfold unpackLow at hl
  rw [Nat.shiftRight_eq_div_pow] at hh
  rw [mask_eq, Nat.and_pow_two_sub_one_eq_mod] at hl
  omega

theorem pack_inj {a b a' b' : Nat} (hb : b < 2 ^ 32) (hb' : b' < 2 ^ 32)
    (h : pack a b = pack a' b') : a = a' ∧ b = b' := by
  rw [pack_eq_add a b hb, pack_eq_add a' b' hb'] at h
  omega

theorem pack_unpack (key : Nat) : pack (unpack key).1 (unpack key).2 = key := by
  unfold unpack unpackHigh unpackLow
  rw [mask_eq, Nat.and_pow_two_sub_one_eq_mod, Nat.shiftRight_eq_div_pow]
  rw [pack_eq_add _ _ (Nat.mod_lt _ (by norm_num))]
  omega

/-- C2: for identifiers below `2 ^ 32`, unpacking `(id1 << 32) | id2` by
`(key >> 32, key & 0xFFFFFFFF)` returns exactly `(id1, id2)`, and on 64-bit
keys packing is the two-sided inverse, so the pair is a strict bijection
between `[0, 2^32) × [0, 2^32)` and `[0, 2^64)`. -/
theorem pack_unpack_bijection (id1 id2 key : Nat)
    (h1 : id1 < 2 ^ 32) (h2 : id2 < 2 ^ 32) (hk : key < 2 ^ 64) :
    unpack (pack id1 id2) = (id1, id2) ∧
    pack (unpack key).1 (unpack key).2 = key ∧
    (unpack key).1 < 2 ^ 32 ∧ (unpack key).2 < 2 ^ 32 := by
  refine ⟨unpack_pack id1 id2 h2, pack_unpack key, ?_, ?_⟩
  · show key >>> 32 < 2 ^ 32
    rw [Nat.shiftRight_eq_div_pow]
    omega
  · show key &&& 0xFFFFFFFF < 2 ^ 32
    rw [mask_eq, Nat.and_pow_two_sub_one_eq_mod]
    omega

/-- Witness for C2 at `id1 = 3`, `id2 = 5`, `key = 2 ^ 33 + 41`. -/
theorem pack_unpack_bijection_witness :
    3 < 2 ^ 32 ∧ 5 < 2 ^ 32 ∧ 2 ^ 33 + 41 < 2 ^ 64 ∧
    (unpack (pack 3 5) = (3, 5) ∧
     pack (unpack (2 ^ 33 + 41)).1 (unpack (2 ^ 33 + 41)).2 = 2 ^ 33 + 41 ∧
     (unpack (2 ^ 33 + 41)).1 < 2 ^ 32 ∧ (unpack (2 ^ 33 + 41)).2 < 2 ^ 32) :=
  ⟨by norm_num, by norm_num, by norm_num,
   pack_unpack_bijection 3 5 (2 ^ 33 + 41) (by norm_num) (by norm_num) (by norm_num)⟩

/-! ### Word list infrastructure -/

theorem id_to_word_perm (triplets : List Triplet) :
    (id_to_word triplets).Perm (all_words triplets) :=
  List.perm_insertionSort StrLE (all_words triplets)

theorem nodup_id_to_word (triplets : List Triplet) : (id_to_word triplets).Nodup :=
  ((id_to_word_perm triplets).symm.nodup (List.nodup_dedup _))

theorem mem_id_to_word {triplets : List Triplet} {w : String} :
    w ∈ id_to_word triplets ↔
      w ∈ sentinelTokens ∨ ∃ trip ∈ triplets, w ∈ tripletWords trip := by
  rw [(id_to_word_perm triplets).mem_iff]
  unfold all_words
  rw [List.mem_dedup, List.mem_append, List.mem_flatMap]

theorem sentinel_mem_id_to_word {triplets : List Triplet} {w : String}
    (h : w ∈ sentinelTokens) : w ∈ id_to_word triplets :=
  mem_id_to_word.mpr (Or.inl h)

theorem tripletWord_mem_id_to_word {triplets : List Triplet} {trip : Triplet}
    (ht : trip ∈ triplets) :
    trip.1 ∈ id_to_word triplets ∧ trip.2.1 ∈ id_to_word triplets ∧
      trip.2.2 ∈ id_to_word triplets := by
  refine ⟨?_, ?_, ?_⟩ <;>
    exact mem_id_to_word.mpr (Or.inr ⟨trip, ht, by simp [tripletWords]⟩)

theorem word_to_id_lt {triplets : List Triplet} {w : String}
    (h : w ∈ id_to_word triplets) :
    word_to_id triplets w < (id_to_word triplets).length :=
  List.indexOf_lt_length.mpr h

theorem word_to_id_inj {triplets : List Triplet} {w w' : String}
    (hw : w ∈ id_to_word triplets) (hw' : w' ∈ id_to_word triplets) :
    word_to_id triplets w = word_to_id triplets w' ↔ w = w' :=
  List.indexOf_inj hw hw'

theorem getD_word_to_id {triplets : List Triplet} {w : String}
    (h : w ∈ id_to_word triplets) :
    (id_to_word triplets).getD (word_to_id triplets w) "" = w := by
  rw [List.getD_eq_getElem _ _ (word_to_id_lt h)]
  exact List.getElem_indexOf _

/-! ### Table and key infrastructure -/

theorem mem_int_markov_data {triplets : List Triplet} {e : Nat × Nat} :
    e ∈ int_markov_data triplets ↔
      ∃ trip ∈ triplets,
        e = (pack (word_to_id triplets trip.1) (word_to_id triplets trip.2.1),
             word_to_id triplets trip.2.2) := by
  unfold int_markov_data
  rw [List.mem_map]
  constructor
  · rintro ⟨trip, ht, he⟩; exact ⟨trip, ht, he.symm⟩
  · rintro ⟨trip, ht, he⟩; exact ⟨trip, ht, he.symm⟩

theorem mem_tableValues {triplets : List Triplet} {key v : Nat} :
    v ∈ tableValues triplets key ↔
      ∃ trip ∈ triplets,
        pack (word_to_id triplets trip.1) (word_to_id triplets trip.2.1) = key ∧
        word_to_id triplets trip.2.2 = v := by
  unfold tableValues
  rw [List.mem_map]
  constructor
  · rintro ⟨e, hef, hv⟩
    rw [List.mem_filter] at hef
    obtain ⟨trip, ht, he⟩ := mem_int_markov_data.mp hef.1
    refine ⟨trip, ht, ?_, ?_⟩
    · have h2 := hef.2
      rw [he] at h2
      simpa using h2
    · rw [he] at hv
      simpa using hv
  · rintro ⟨trip, ht, hk, hv⟩
    refine ⟨(pack (word_to_id triplets trip.1) (word_to_id triplets trip.2.1),
             word_to_id triplets trip.2.2), ?_, hv⟩
    rw [List.mem_filter]
    exact ⟨mem_int_markov_data.mpr ⟨trip, ht, rfl⟩, by simpa using hk⟩

theorem mem_sorted_keys {triplets : List Triplet} {k : Nat} :
    k ∈ sorted_keys triplets ↔ k ∈ (int_markov_data triplets).map Prod.fst := by
  unfold sorted_keys
  rw [(List.perm_insertionSort _ _).mem_iff, List.mem_dedup]

theorem sorted_lt_of_sorted_le_nodup {l : List Nat}
    (hs : List.Sorted (fun a b => a ≤ b) l) (hn : l.Nodup) :
    List.Sorted (fun a b => a < b) l :=
  (List.Pairwise.and hs hn).imp fun h => lt_of_le_of_ne h.1 h.2

theorem sorted_keys_sorted_lt (triplets : List Triplet) :
    List.Sorted (fun a b => a < b) (sorted_keys triplets) :=
  sorted_lt_of_sorted_le_nodup
    (List.sorted_insertionSort _ _)
    ((List.perm_insertionSort _ _).symm.nodup (List.nodup_dedup _))

theorem mem_value_ids_sorted {triplets : List Triplet} {key v : Nat} :
    v ∈ value_ids_sorted triplets key ↔ v ∈ tableValues triplets key := by
  unfold value_ids_sorted
  rw [(List.perm_insertionSort _ _).mem_iff, List.mem_dedup]

theorem value_ids_sorted_lt (triplets : List Triplet) (key : Nat) :
    List.Sorted (fun a b => a < b) (value_ids_sorted triplets key) :=
  sorted_lt_of_sorted_le_nodup
    (List.sorted_insertionSort _ _)
    ((List.perm_insertionSort _ _).symm.nodup (List.nodup_dedup _))

/-- Every key of the in-memory table is the packing of two word-list indices
of words of some source triplet. -/
theorem sorted_keys_shape {triplets : List Triplet} {k : Nat}
    (hk : k ∈ sorted_keys triplets) :
    ∃ trip ∈ triplets,
      k = pack (word_to_id triplets trip.1) (word_to_id triplets trip.2.1) ∧
      word_to_id triplets trip.1 < (id_to_word triplets).length ∧
      word_to_id triplets trip.2.1 < (id_to_word triplets).length := by
  rw [mem_sorted_keys, List.mem_map] at hk
  obtain ⟨e, he, hfst⟩ := hk
  obtain ⟨trip, ht, he'⟩ := mem_int_markov_data.mp he
  obtain ⟨h1, h2, _⟩ := tripletWord_mem_id_to_word ht
  exact ⟨trip, ht, by rw [← hfst, he'], word_to_id_lt h1, word_to_id_lt h2⟩

/-! ### C5: emitted successor lists -/

/-- C5: every per-key line of the emitted Compact Dictionary carries a
successor-identifier list that is strictly ascending with no duplicates and
whose members are exactly the successors observed for that line's Context Key
in the in-memory table. -/
theorem keyLine_successors_sorted (triplets : List Triplet) (line : Nat × Nat × List Nat)
    (hl : line ∈ (compactDict triplets).keyLines) :
    List.Sorted (fun a b => a < b) line.2.2 ∧ line.2.2.Nodup ∧
    ∃ k ∈ sorted_keys triplets, line = keyLine triplets k ∧
      ∀ v, v ∈ line.2.2 ↔ v ∈ tableValues triplets k := by
  obtain ⟨k, hk, rfl⟩ := List.mem_map.mp hl
  refine ⟨value_ids_sorted_lt triplets k,
    (List.perm_insertionSort _ _).symm.nodup (List.nodup_dedup _),
    k, hk, rfl, fun v => mem_value_ids_sorted⟩

/-- Witness for C5: the line `(0, 7, [3])` of the demonstration corpus. -/
theorem keyLine_successors_sorted_witness :
    ((0, 7, [3]) ∈ (compactDict demoTriplets).keyLines) ∧
    (List.Sorted (fun a b => a < b) ((0 : Nat), (7 : Nat), [(3 : Nat)]).2.2 ∧
     ((0 : Nat), (7 : Nat), [(3 : Nat)]).2.2.Nodup ∧
     ∃ k ∈ sorted_keys demoTriplets, ((0 : Nat), (7 : Nat), [(3 : Nat)]) = keyLine demoTriplets k ∧
       ∀ v, v ∈ ((0 : Nat), (7 : Nat), [(3 : Nat)]).2.2 ↔ v ∈ tableValues demoTriplets k) :=
  ⟨by decide, keyLine_successors_sorted demoTriplets (0, 7, [3]) (by decide)⟩

/-! ### C6: key line ordering -/

theorem sorted_keys_unpack_lt {triplets : List Triplet}
    (hN : (id_to_word triplets).length ≤ 2 ^ 32) {k k' : Nat}
    (hk : k ∈ sorted_keys triplets) (hk' : k' ∈ sorted_keys triplets) (hlt : k < k') :
    unpackHigh k < unpackHigh k' ∨
      (unpackHigh k = unpackHigh k' ∧ unpackLow k < unpackLow k') := by
  obtain ⟨trip, _, hkeq, hi1, hi2⟩ := sorted_keys_shape hk
  obtain ⟨trip', _, hkeq', hi1', hi2'⟩ := sorted_keys_shape hk'
  subst hkeq
  subst hkeq'
  rw [unpackHigh_pack _ _ (by omega), unpackLow_pack _ _ (by omega),
    unpackHigh_pack _ _ (by omega), unpackLow_pack _ _ (by omega)]
  rw [pack_eq_add _ _ (by omega), pack_eq_add _ _ (by omega)] at hlt
  omega

/-- C6: in the emitted Compact Dictionary the per-key lines occur in strictly
ascending numeric order of the packed 64-bit key; when every identifier fits
in 32 bits this is the lexicographic order on `(id1, id2)`; and no Context
Key appears on two lines. -/
theorem keyLines_ascending (triplets : List Triplet)
    (hN : (id_to_word triplets).length ≤ 2 ^ 32) :
    List.Sorted (fun a b => a < b)
      ((compactDict triplets).keyLines.map fun l => pack l.1 l.2.1) ∧
    ((compactDict triplets).keyLines).Pairwise
      (fun l l' => l.1 < l'.1 ∨ (l.1 = l'.1 ∧ l.2.1 < l'.2.1)) ∧
    ((compactDict triplets).keyLines.map fun l => (l.1, l.2.1)).Nodup := by
  have hkl : (compactDict triplets).keyLines =
      (sorted_keys triplets).map (keyLine triplets) := rfl
  have hp := sorted_keys_sorted_lt triplets
  refine ⟨?_, ?_, ?_⟩
  · rw [hkl, List.map_map]
    have hmap : ∀ k ∈ sorted_keys triplets,
        ((fun l : Nat × Nat × List Nat => pack l.1 l.2.1) ∘ keyLine triplets) k = id k := by
      intro k _hk
      simp only [Function.comp_apply, id_eq, keyLine]
      exact pack_unpack k
    rw [List.map_congr_left hmap, List.map_id]
    exact hp
  · rw [hkl, List.pairwise_map]
    exact List.Pairwise.imp_of_mem
      (fun ha hb hlt => sorted_keys_unpack_lt hN ha hb hlt) hp
  · rw [hkl, List.map_map]
    show List.Pairwise _ _
    rw [List.pairwise_map]
    refine List.Pairwise.imp_of_mem (fun ha hb hlt => ?_) hp
    rcases sorted_keys_unpack_lt hN ha hb hlt with h | h <;>
      simp [Function.comp, keyLine, Prod.ext_iff] <;> omega

/-- Witness for C6 at the demonstration corpus. -/
theorem keyLines_ascending_witness :
    ((id_to_word demoTriplets).length ≤ 2 ^ 32) ∧
    (List.Sorted (fun a b => a < b)
       ((compactDict demoTriplets).keyLines.map fun l => pack l.1 l.2.1) ∧
     ((compactDict demoTriplets).keyLines).Pairwise
       (fun l l' => l.1 < l'.1 ∨ (l.1 = l'.1 ∧ l.2.1 < l'.2.1)) ∧
     ((compactDict demoTriplets).keyLines.map fun l => (l.1, l.2.1)).Nodup) :=
  ⟨by decide, keyLines_ascending demoTriplets (by decide)⟩

/-! ### C9: every emitted identifier indexes the word list -/

theorem mem_start_word_ids {triplets : List Triplet} {s : Nat} :
    s ∈ start_word_ids triplets ↔
      ∃ trip ∈ triplets, trip.1 = BOS ∧ word_to_id triplets trip.2.1 = s := by
  unfold start_word_ids
  rw [List.mem_dedup, List.mem_map]
  constructor
  · rintro ⟨trip, htf, hs⟩
    rw [List.mem_filter] at htf
    exact ⟨trip, htf.1, by simpa using htf.2, hs⟩
  · rintro ⟨trip, ht, hb, hs⟩
    exact ⟨trip, List.mem_filter.mpr ⟨ht, by simpa using hb⟩, hs⟩

theorem mem_startLine {triplets : List Triplet} {s : Nat} :
    s ∈ (compactDict triplets).startLine ↔ s ∈ start_word_ids triplets := by
  show s ∈ List.insertionSort _ _ ↔ _
  rw [(List.perm_insertionSort _ _).mem_iff]

/-- C9: every identifier in the emitted Compact Dictionary — each Start-Set
member, each component of each context key, and each successor — is a valid
zero-based index into the emitted Word List. -/
theorem identifiers_index_word_list (triplets : List Triplet)
    (hN : (id_to_word triplets).length ≤ 2 ^ 32) :
    (∀ s ∈ (compactDict triplets).startLine, s < (id_to_word triplets).length) ∧
    (∀ l ∈ (compactDict triplets).keyLines,
      l.1 < (id_to_word triplets).length ∧ l.2.1 < (id_to_word triplets).length ∧
      ∀ v ∈ l.2.2, v < (id_to_word triplets).length) := by
  constructor
  · intro s hs
    obtain ⟨trip, ht, _, hid⟩ := mem_start_word_ids.mp (mem_startLine.mp hs)
    obtain ⟨_, h2, _⟩ := tripletWord_mem_id_to_word ht
    rw [← hid]
    exact word_to_id_lt h2
  · intro l hl
    obtain ⟨k, hk, rfl⟩ := List.mem_map.mp hl
    obtain ⟨trip, _, hkeq, hi1, hi2⟩ := sorted_keys_shape hk
    subst hkeq
    refine ⟨?_, ?_, ?_⟩
    · show unpackHigh _ < _
      rw [unpackHigh_pack _ _ (by omega)]
      exact hi1
    · show unpackLow _ < _
      rw [unpackLow_pack _ _ (by omega)]
      exact hi2
    · intro v hv
      obtain ⟨trip', ht', _, hv'⟩ := mem_tableValues.mp (mem_value_ids_sorted.mp hv)
      obtain ⟨_, _, h3⟩ := tripletWord_mem_id_to_word ht'
      rw [← hv']
      exact word_to_id_lt h3

/-- Witness for C9 at the demonstration corpus. -/
theorem identifiers_index_word_list_witness :
    ((id_to_word demoTriplets).length ≤ 2 ^ 32) ∧
    ((∀ s ∈ (compactDict demoTriplets).startLine, s < (id_to_word demoTriplets).length) ∧
     (∀ l ∈ (compactDict demoTriplets).keyLines,
       l.1 < (id_to_word demoTriplets).length ∧ l.2.1 < (id_to_word demoTriplets).length ∧
       ∀ v ∈ l.2.2, v < (id_to_word demoTriplets).length)) :=
  ⟨by decide, identifiers_index_word_list demoTriplets (by decide)⟩

/-! ### C7: empty corpus still yields valid sentinel-only artifacts -/

/-- C7: on a corpus with no usable units the build does not fail — it emits
the sentinel-only Word List (the five sentinels in sorted order) and a
Compact Dictionary with an empty start line and no key lines; and the
sentinel tokens are present in the vocabulary of every build. -/
theorem empty_corpus_valid_output :
    (∀ triplets : List Triplet, ∀ s ∈ sentinelTokens, s ∈ id_to_word triplets) ∧
    all_triplets [] = [] ∧
    id_to_word (all_triplets []) =
      [BOS, EOS, LINK_TOKEN_CT, LINK_TOKEN_RC, LINK_TOKEN_TE] ∧
    compactDict (all_triplets []) = ⟨[], []⟩ :=
  ⟨fun _t _s hs => sentinel_mem_id_to_word hs, rfl, by decide, by decide⟩

/-- Witness for C7: the start sentinel is in the vocabulary of the
demonstration corpus. -/
theorem empty_corpus_valid_output_witness :
    (BOS ∈ sentinelTokens) ∧ BOS ∈ id_to_word demoTriplets :=
  ⟨by decide, empty_corpus_valid_output.1 demoTriplets BOS (by decide)⟩

/-! ### C3: insertion-order invariance -/

theorem insertionSort_eq_of_perm {α : Type} {r : α → α → Prop} [DecidableRel r]
    [IsTotal α r] [IsTrans α r] [IsAntisymm α r] {l l' : List α} (h : l.Perm l') :
    List.insertionSort r l = List.insertionSort r l' :=
  List.eq_of_perm_of_sorted
    ((List.perm_insertionSort r l).trans (h.trans (List.perm_insertionSort r l').symm))
    (List.sorted_insertionSort r l) (List.sorted_insertionSort r l')

theorem perm_flatMap {α β : Type} (f : α → List β) {l l' : List α} (h : l.Perm l') :
    (l.flatMap f).Perm (l'.flatMap f) := by
  induction h with
  | nil => exact List.Perm.rfl
  | cons x _h ih =>
    rw [List.flatMap_cons, List.flatMap_cons]
    exact ih.append_left (f x)
  | swap x y l =>
    rw [List.flatMap_cons, List.flatMap_cons, List.flatMap_cons, List.flatMap_cons,
      ← List.append_assoc, ← List.append_assoc]
    exact List.Perm.append_right _ List.perm_append_comm
  | trans _h1 _h2 ih1 ih2 => exact ih1.trans ih2

/-- C3: the emitted Word List and Compact Dictionary depend only on the
multiset of triplets — running the build on any permutation of the same
triplets yields identical artifacts. -/
theorem output_insertion_order_invariant (t t' : List Triplet) (hperm : t.Perm t') :
    id_to_word t = id_to_word t' ∧ compactDict t = compactDict t' := by
  have hwl : id_to_word t = id_to_word t' := by
    unfold id_to_word all_words
    exact insertionSort_eq_of_perm (((perm_flatMap tripletWords hperm).append_left
      sentinelTokens).dedup)
  have hwid : word_to_id t = word_to_id t' := by
    funext w
    unfold word_to_id
    rw [hwl]
  have hentries : (int_markov_data t).Perm (int_markov_data t') := by
    unfold int_markov_data
    rw [hwid]
    exact hperm.map _
  have hkeys : sorted_keys t = sorted_keys t' := by
    unfold sorted_keys
    exact insertionSort_eq_of_perm ((hentries.map Prod.fst).dedup)
  have hvalues : ∀ key, value_ids_sorted t key = value_ids_sorted t' key := by
    intro key
    unfold value_ids_sorted tableValues
    exact insertionSort_eq_of_perm (((hentries.filter _).map Prod.snd).dedup)
  have hline : keyLine t = keyLine t' := by
    funext key
    unfold keyLine
    rw [hvalues key]
  have hstart : (start_word_ids t).Perm (start_word_ids t') := by
    unfold start_word_ids
    rw [hwid]
    exact (((hperm.filter _).map _).dedup)
  refine ⟨hwl, ?_⟩
  unfold compactDict
  rw [hkeys, hline, insertionSort_eq_of_perm hstart]

/-- Witness for C3: two insertion orders of the same four-triplet multiset. -/
theorem output_insertion_order_invariant_witness :
    (permTripletsA.Perm permTripletsB) ∧
    (id_to_word permTripletsA = id_to_word permTripletsB ∧
     compactDict permTripletsA = compactDict permTripletsB) :=
  ⟨by decide, output_insertion_order_invariant permTripletsA permTripletsB (by decide)⟩

/-! ### C4: the in-memory table keeps duplicates; emission deduplicates -/

/-- C4 counterexample: the in-memory table is built with
`int_markov_data[long_key].append(id3)` (source line 151), so observing the
same triplet twice records the successor twice — the per-key collection is
not duplicate-free, refuting set semantics for the in-memory table. -/
theorem table_values_duplicate :
    ¬ (tableValues dupTriplets
        (pack (word_to_id dupTriplets "a") (word_to_id dupTriplets "b"))).Nodup := by
  decide

theorem count_snd_filter_map {α : Type} [BEq α] [LawfulBEq α] (f : α → Nat × Nat) (a : α) :
    ∀ t : List α, (∀ b ∈ t, f b = f a ↔ b = a) →
      (((t.map f).filter fun e => e.1 == (f a).1).map Prod.snd).count (f a).2 = t.count a
  | [], _ => rfl
  | b :: t, hf => by
    have ih := count_snd_filter_map f a t fun c hc => hf c (List.mem_cons_of_mem _ hc)
    have hfb := hf b (List.mem_cons_self _ _)
    by_cases hb : b = a
    · subst hb
      simp only [List.map_cons, List.filter_cons, if_pos (by simp : ((f b).1 == (f b).1) = true)]
      simp [List.count_cons, ih]
    · have hfba : (f b) ≠ (f a) := fun h => hb (hfb.mp h)
      simp only [List.map_cons, List.filter_cons]
      by_cases hkey : (f b).1 = (f a).1
      · rw [if_pos (by simpa using hkey)]
        have hsnd : (f b).2 ≠ (f a).2 := fun h2 => hfba (Prod.ext hkey h2)
        simp [List.count_cons, ih, hb, hsnd]
      · rw [if_neg (by simpa using hkey)]
        simp [List.count_cons, ih, hb]

/-- C4 amended: the in-memory Transition Table maps each Context Key to the
list of observed successors with duplicates retained — the multiplicity of a
triplet in the corpus equals the multiplicity of its successor identifier in
the table entry — and only the emitted per-key line is deduplicated. -/
theorem table_records_multiplicity (t : List Triplet)
    (hN : (id_to_word t).length ≤ 2 ^ 32) (trip : Triplet) (ht : trip ∈ t) :
    (tableValues t (pack (word_to_id t trip.1) (word_to_id t trip.2.1))).count
        (word_to_id t trip.2.2) = t.count trip ∧
    ∀ key, (value_ids_sorted t key).Nodup := by
  constructor
  · have ha := tripletWord_mem_id_to_word ht
    apply count_snd_filter_map
      (fun trip' => (pack (word_to_id t trip'.1) (word_to_id t trip'.2.1),
        word_to_id t trip'.2.2)) trip t
    intro b hb
    have hbmem := tripletWord_mem_id_to_word hb
    constructor
    · intro hfeq
      rw [Prod.ext_iff] at hfeq
      obtain ⟨hkey, hsnd⟩ := hfeq
      have h12 := pack_inj
        (lt_of_lt_of_le (word_to_id_lt hbmem.2.1) hN)
        (lt_of_lt_of_le (word_to_id_lt ha.2.1) hN) hkey
      have e1 : b.1 = trip.1 := (word_to_id_inj hbmem.1 ha.1).mp h12.1
      have e2 : b.2.1 = trip.2.1 := (word_to_id_inj hbmem.2.1 ha.2.1).mp h12.2
      have e3 : b.2.2 = trip.2.2 := (word_to_id_inj hbmem.2.2 ha.2.2).mp hsnd
      exact Prod.ext e1 (Prod.ext e2 e3)
    · intro hba
      rw [hba]
  · intro key
    exact (List.perm_insertionSort _ _).symm.nodup (List.nodup_dedup _)

/-- Witness for C4's amended statement: in the duplicated corpus the
successor is recorded twice in the table and the corpus holds the triplet
twice. -/
theorem table_records_multiplicity_witness :
    ((id_to_word dupTriplets).length ≤ 2 ^ 32) ∧ (("a", "b", "c") ∈ dupTriplets) ∧
    ((tableValues dupTriplets
        (pack (word_to_id dupTriplets "a") (word_to_id dupTriplets "b"))).count
        (word_to_id dupTriplets "c") = dupTriplets.count ("a", "b", "c") ∧
     ∀ key, (value_ids_sorted dupTriplets key).Nodup) :=
  ⟨by decide, by decide,
   table_records_multiplicity dupTriplets (by decide) ("a", "b", "c") (by decide)⟩

/-! ### C1: round-trip of the emitted artifacts -/

theorem find?_map_unique {α β : Type} (g : α → β) (p : β → Bool) (k : α) :
    ∀ l : List α, k ∈ l → (∀ x ∈ l, p (g x) = true ↔ x = k) →
      (l.map g).find? p = some (g k)
  | [], hk, _ => absurd hk (List.not_mem_nil k)
  | x :: l, hk, hq => by
    rw [List.map_cons]
    cases hpg : p (g x) with
    | true =>
      have hx : x = k := (hq x (List.mem_cons_self x l)).mp hpg
      subst hx
      exact List.find?_cons_of_pos _ hpg
    | false =>
      have hx : x ≠ k := fun he => by
        rw [(hq x (List.mem_cons_self x l)).mpr he] at hpg
        exact Bool.noConfusion hpg
      have hk' : k ∈ l := by
        rcases List.mem_cons.mp hk with he | hk'
        · exact absurd he.symm hx
        · exact hk'
      rw [List.find?_cons_of_neg _ (by simp [hpg])]
      exact find?_map_unique g p k l hk' fun y hy => hq y (List.mem_cons_of_mem _ hy)

/-- C1: for every corpus whose vocabulary fits the 32-bit identifier space,
decoding the emitted Compact Dictionary together with the emitted Word List
reconstructs, for every 2-token context occurring in the source triplets,
exactly the set of tokens observed to follow that context. -/
theorem roundtrip_exact (triplets : List Triplet)
    (hN : (id_to_word triplets).length ≤ 2 ^ 32)
    (a b : String) (hab : ∃ c0, (a, b, c0) ∈ triplets) (c : String) :
    c ∈ decodeSuccessors (id_to_word triplets) (compactDict triplets) a b ↔
      (a, b, c) ∈ triplets := by
  obtain ⟨c0, habm⟩ := hab
  have hwords := tripletWord_mem_id_to_word habm
  have ha : a ∈ id_to_word triplets := hwords.1
  have hb : b ∈ id_to_word triplets := hwords.2.1
  have hida : (id_to_word triplets).indexOf a = word_to_id triplets a := rfl
  have hidb : (id_to_word triplets).indexOf b = word_to_id triplets b := rfl
  set k : Nat := pack (word_to_id triplets a) (word_to_id triplets b) with hkdef
  have hkmem : k ∈ sorted_keys triplets := by
    rw [mem_sorted_keys, List.mem_map]
    exact ⟨(k, word_to_id triplets c0),
      mem_int_markov_data.mpr ⟨(a, b, c0), habm, rfl⟩, rfl⟩
  have hfind : ((sorted_keys triplets).map (keyLine triplets)).find?
      (fun l => l.1 == (id_to_word triplets).indexOf a &&
        l.2.1 == (id_to_word triplets).indexOf b) = some (keyLine triplets k) := by
    apply find?_map_unique _ _ k _ hkmem
    intro x hx
    obtain ⟨trip, htx, hxeq, hx1, hx2⟩ := sorted_keys_shape hx
    have htw := tripletWord_mem_id_to_word htx
    constructor
    · intro hp
      rw [Bool.and_eq_true, beq_iff_eq, beq_iff_eq] at hp
      show x = k
      rw [hxeq] at hp ⊢
      have hu1 : unpackHigh (pack (word_to_id triplets trip.1)
          (word_to_id triplets trip.2.1)) = word_to_id triplets trip.1 :=
        unpackHigh_pack _ _ (by omega)
      have hu2 : unpackLow (pack (word_to_id triplets trip.1)
          (word_to_id triplets trip.2.1)) = word_to_id triplets trip.2.1 :=
        unpackLow_pack _ _ (by omega)
      have hp1 : word_to_id triplets trip.1 = word_to_id triplets a := by
        have := hp.1
        rw [show (keyLine triplets (pack (word_to_id triplets trip.1)
          (word_to_id triplets trip.2.1))).1 = unpackHigh (pack (word_to_id triplets trip.1)
          (word_to_id triplets trip.2.1)) from rfl, hu1, hida] at this
        exact this
      have hp2 : word_to_id triplets trip.2.1 = word_to_id triplets b := by
        have := hp.2
        rw [show (keyLine triplets (pack (word_to_id triplets trip.1)
          (word_to_id triplets trip.2.1))).2.1 = unpackLow (pack (word_to_id triplets trip.1)
          (word_to_id triplets trip.2.1)) from rfl, hu2, hidb] at this
        exact this
      rw [hkdef, hp1, hp2]
    · intro hxk
      subst hxk
      rw [Bool.and_eq_true, beq_iff_eq, beq_iff_eq]
      constructor
      · show unpackHigh k = _
        rw [hkdef, unpackHigh_pack _ _ (lt_of_lt_of_le (word_to_id_lt hb) hN), hida]
      · show unpackLow k = _
        rw [hkdef, unpackLow_pack _ _ (lt_of_lt_of_le (word_to_id_lt hb) hN), hidb]
  show c ∈ decodeSuccessors _ _ a b ↔ _
  unfold decodeSuccessors
  rw [show (compactDict triplets).keyLines =
    (sorted_keys triplets).map (keyLine triplets) from rfl, hfind]
  show c ∈ (value_ids_sorted triplets k).map
    (fun v => (id_to_word triplets).getD v "") ↔ _
  rw [List.mem_map]
  constructor
  · rintro ⟨v, hv, hvc⟩
    obtain ⟨trip, htm, hkey, hid3⟩ := mem_tableValues.mp (mem_value_ids_sorted.mp hv)
    have htw := tripletWord_mem_id_to_word htm
    have hinj := pack_inj
      (lt_of_lt_of_le (word_to_id_lt htw.2.1) hN)
      (lt_of_lt_of_le (word_to_id_lt hb) hN) hkey
    have e1 : trip.1 = a := (word_to_id_inj htw.1 ha).mp hinj.1
    have e2 : trip.2.1 = b := (word_to_id_inj htw.2.1 hb).mp hinj.2
    have e3 : trip.2.2 = c := by
      rw [← hvc, ← hid3]
      exact (getD_word_to_id htw.2.2).symm
    have : trip = (a, b, c) := Prod.ext e1 (Prod.ext e2 e3)
    rw [← this]
    exact htm
  · intro hc
    have hcw := tripletWord_mem_id_to_word hc
    refine ⟨word_to_id triplets c, ?_, getD_word_to_id hcw.2.2⟩
    exact mem_value_ids_sorted.mpr (mem_tableValues.mpr ⟨(a, b, c), hc, rfl, rfl⟩)

/-- Witness for C1 at the demonstration corpus: the context
`("cat", "sat")` decodes to exactly its observed successor. -/
theorem roundtrip_exact_witness :
    ((id_to_word demoTriplets).length ≤ 2 ^ 32) ∧
    (∃ c0, ("cat", "sat", c0) ∈ demoTriplets) ∧
    (LINK_TOKEN_CT ∈
        decodeSuccessors (id_to_word demoTriplets) (compactDict demoTriplets) "cat" "sat" ↔
      ("cat", "sat", LINK_TOKEN_CT) ∈ demoTriplets) :=
  ⟨by decide, ⟨LINK_TOKEN_CT, by decide⟩,
   roundtrip_exact demoTriplets (by decide) "cat" "sat"
     ⟨LINK_TOKEN_CT, by decide⟩ LINK_TOKEN_CT⟩

/-! ### C10: sentinel positions -/

theorem getD_append_left {α : Type} {l l' : List α} {n : Nat} (h : n < l.length) (d : α) :
    (l ++ l').getD n d = l.getD n d := by
  rw [List.getD_eq_getElem _ _ (by simp; omega), List.getD_eq_getElem _ _ h]
  exact List.getElem_append_left h

theorem fullSequence_eq (res_words con_words tra_words : List String) :
    fullSequence res_words con_words tra_words =
      BOS :: ((res_words ++ [LINK_TOKEN_RC] ++ con_words ++ [LINK_TOKEN_CT] ++
        tra_words ++ [LINK_TOKEN_TE]) ++ [EOS]) := by
  simp [fullSequence]

theorem mem_mid {res_words con_words tra_words : List String} {w : String}
    (hw : w ∈ res_words ++ [LINK_TOKEN_RC] ++ con_words ++ [LINK_TOKEN_CT] ++
      tra_words ++ [LINK_TOKEN_TE]) :
    w ∈ res_words ∨ w ∈ con_words ∨ w ∈ tra_words ∨
      w = LINK_TOKEN_RC ∨ w = LINK_TOKEN_CT ∨ w = LINK_TOKEN_TE := by
  simp only [List.mem_append, List.mem_singleton] at hw
  tauto

/-- Inside one assembled sequence the start sentinel occurs only at position
0 and the end sentinel only at the last position, so a sliding-window triplet
never has the end sentinel in its first two slots nor the start sentinel in
its last two slots. -/
theorem extractTriplets_fullSequence_shape {res_words con_words tra_words : List String}
    (hnb : BOS ∉ res_words ∧ BOS ∉ con_words ∧ BOS ∉ tra_words)
    (hne : EOS ∉ res_words ∧ EOS ∉ con_words ∧ EOS ∉ tra_words)
    {trip : Triplet} (ht : trip ∈ extractTriplets (fullSequence res_words con_words tra_words)) :
    trip.1 ≠ EOS ∧ trip.2.1 ≠ EOS ∧ trip.2.1 ≠ BOS ∧ trip.2.2 ≠ BOS := by
  set mid := res_words ++ [LINK_TOKEN_RC] ++ con_words ++ [LINK_TOKEN_CT] ++
    tra_words ++ [LINK_TOKEN_TE] with hmiddef
  have hbosmid : BOS ∉ mid := by
    intro hw
    rcases mem_mid hw with h | h | h | h | h | h
    · exact hnb.1 h
    · exact hnb.2.1 h
    · exact hnb.2.2 h
    · exact absurd h (by decide)
    · exact absurd h (by decide)
    · exact absurd h (by decide)
  have heosmid : EOS ∉ mid := by
    intro hw
    rcases mem_mid hw with h | h | h | h | h | h
    · exact hne.1 h
    · exact hne.2.1 h
    · exact hne.2.2 h
    · exact absurd h (by decide)
    · exact absurd h (by decide)
    · exact absurd h (by decide)
  have hseq : fullSequence res_words con_words tra_words = BOS :: (mid ++ [EOS]) :=
    fullSequence_eq res_words con_words tra_words
  have hlen : (fullSequence res_words con_words tra_words).length = mid.length + 2 := by
    rw [hseq]; simp
  have hg : ∀ j, 0 < j → j < mid.length + 1 →
      (fullSequence res_words con_words tra_words).getD j "" ∈ mid := by
    intro j hj0 hjlt
    obtain ⟨j', rfl⟩ : ∃ j', j = j' + 1 := ⟨j - 1, by omega⟩
    rw [hseq, List.getD_cons_succ, getD_append_left (by omega), List.getD_eq_getElem _ _ (by omega)]
    exact List.getElem_mem _
  have hg0 : (fullSequence res_words con_words tra_words).getD 0 "" = BOS := by
    rw [hseq]; rfl
  have hglast : (fullSequence res_words con_words tra_words).getD (mid.length + 1) "" = EOS := by
    rw [hseq, List.getD_cons_succ, List.getD_append_right _ _ _ _ (le_refl _)]
    simp
  have hmidlen : 3 ≤ mid.length := by
    rw [hmiddef]
    simp [List.length_append]
    omega
  have hnot : ¬((fullSequence res_words con_words tra_words).length < 3) := by
    rw [hlen]; omega
  unfold extractTriplets at ht
  rw [if_neg hnot] at ht
  rw [List.mem_map] at ht
  obtain ⟨i, hi, htrip⟩ := ht
  rw [List.mem_range] at hi
  rw [hlen] at hi
  have hi' : i < mid.length := by omega
  refine ⟨?_, ?_, ?_, ?_⟩
  · rw [← htrip]
    show (fullSequence res_words con_words tra_words).getD i "" ≠ EOS
    rcases Nat.eq_zero_or_pos i with hz | hpos
    · rw [hz, hg0]; decide
    · exact fun he => heosmid (he ▸ hg i hpos (by omega))
  · rw [← htrip]
    show (fullSequence res_words con_words tra_words).getD (i + 1) "" ≠ EOS
    exact fun he => heosmid (he ▸ hg (i + 1) (by omega) (by omega))
  · rw [← htrip]
    show (fullSequence res_words con_words tra_words).getD (i + 1) "" ≠ BOS
    exact fun he => hbosmid (he ▸ hg (i + 1) (by omega) (by omega))
  · rw [← htrip]
    show (fullSequence res_words con_words tra_words).getD (i + 2) "" ≠ BOS
    rcases Nat.lt_or_ge (i + 2) (mid.length + 1) with hlt | hge
    · exact fun he => hbosmid (he ▸ hg (i + 2) (by omega) hlt)
    · have : i + 2 = mid.length + 1 := by omega
      rw [this, hglast]; decide

theorem all_triplets_shape {parts : List (List String × List String × List String)}
    (hres : ∀ p ∈ parts, ∀ w ∈ p.1 ++ p.2.1 ++ p.2.2, w ∉ sentinelTokens)
    {trip : Triplet} (ht : trip ∈ all_triplets parts) :
    trip.1 ≠ EOS ∧ trip.2.1 ≠ EOS ∧ trip.2.1 ≠ BOS ∧ trip.2.2 ≠ BOS := by
  unfold all_triplets at ht
  rw [List.mem_flatMap] at ht
  obtain ⟨p, hp, ht⟩ := ht
  refine extractTriplets_fullSequence_shape ⟨?_, ?_, ?_⟩ ⟨?_, ?_, ?_⟩ ht
  · exact fun h => hres p hp BOS (List.mem_append_left _ (List.mem_append_left _ h)) (by decide)
  · exact fun h => hres p hp BOS (List.mem_append_left _ (List.mem_append_right _ h)) (by decide)
  · exact fun h => hres p hp BOS (List.mem_append_right _ h) (by decide)
  · exact fun h => hres p hp EOS (List.mem_append_left _ (List.mem_append_left _ h)) (by decide)
  · exact fun h => hres p hp EOS (List.mem_append_left _ (List.mem_append_right _ h)) (by decide)
  · exact fun h => hres p hp EOS (List.mem_append_right _ h) (by decide)

/-- C10: when no input token equals a reserved sentinel or link string, the
end sentinel's identifier appears in neither component of any emitted
Context Key, and the start sentinel's identifier appears in no emitted
successor list and not in the emitted Start-Set line. -/
theorem sentinel_position_invariants (parts : List (List String × List String × List String))
    (hN : (id_to_word (all_triplets parts)).length ≤ 2 ^ 32)
    (hres : ∀ p ∈ parts, ∀ w ∈ p.1 ++ p.2.1 ++ p.2.2, w ∉ sentinelTokens) :
    (∀ l ∈ (compactDict (all_triplets parts)).keyLines,
       l.1 ≠ word_to_id (all_triplets parts) EOS ∧
       l.2.1 ≠ word_to_id (all_triplets parts) EOS ∧
       ∀ v ∈ l.2.2, v ≠ word_to_id (all_triplets parts) BOS) ∧
    word_to_id (all_triplets parts) BOS ∉ (compactDict (all_triplets parts)).startLine := by
  set t := all_triplets parts with htdef
  have heosw : EOS ∈ id_to_word t := sentinel_mem_id_to_word (by decide)
  have hbosw : BOS ∈ id_to_word t := sentinel_mem_id_to_word (by decide)
  constructor
  · intro l hl
    obtain ⟨k, hk, rfl⟩ := List.mem_map.mp hl
    obtain ⟨trip, htm, hkeq, hi1, hi2⟩ := sorted_keys_shape hk
    have hshape := all_triplets_shape hres htm
    have htw := tripletWord_mem_id_to_word htm
    refine ⟨?_, ?_, ?_⟩
    · show unpackHigh k ≠ _
      rw [hkeq, unpackHigh_pack _ _ (by omega)]
      exact fun he => hshape.1 ((word_to_id_inj htw.1 heosw).mp he)
    · show unpackLow k ≠ _
      rw [hkeq, unpackLow_pack _ _ (by omega)]
      exact fun he => hshape.2.1 ((word_to_id_inj htw.2.1 heosw).mp he)
    · intro v hv
      obtain ⟨trip', htm', _, hv'⟩ := mem_tableValues.mp (mem_value_ids_sorted.mp hv)
      have hshape' := all_triplets_shape hres htm'
      have htw' := tripletWord_mem_id_to_word htm'
      rw [← hv']
      exact fun he => hshape'.2.2.2 ((word_to_id_inj htw'.2.2 hbosw).mp he)
  · intro hmem
    obtain ⟨trip, htm, _, hid⟩ := mem_start_word_ids.mp (mem_startLine.mp hmem)
    have hshape := all_triplets_shape hres htm
    have htw := tripletWord_mem_id_to_word htm
    exact hshape.2.2.1 ((word_to_id_inj hbosw htw.2.1).mp hid.symm).symm

/-- Witness for C10 at the demonstration corpus, whose input tokens are all
distinct from the reserved strings. -/
theorem sentinel_position_invariants_witness :
    ((id_to_word (all_triplets demoParts)).length ≤ 2 ^ 32) ∧
    (∀ p ∈ demoParts, ∀ w ∈ p.1 ++ p.2.1 ++ p.2.2, w ∉ sentinelTokens) ∧
    ((∀ l ∈ (compactDict (all_triplets demoParts)).keyLines,
        l.1 ≠ word_to_id (all_triplets demoParts) EOS ∧
        l.2.1 ≠ word_to_id (all_triplets demoParts) EOS ∧
        ∀ v ∈ l.2.2, v ≠ word_to_id (all_triplets demoParts) BOS) ∧
     word_to_id (all_triplets demoParts) BOS ∉ (compactDict (all_triplets demoParts)).startLine) :=
  ⟨by decide, by decide, sentinel_position_invariants demoParts (by decide) (by decide)⟩

/-! ### C8: there is no vocabulary-overflow check -/

/-- C8 counterexample: the build has no failure path at all (every stage is a
total function of the corpus, source lines 128-151 and 161-173 perform no
size check), so the claim reduces to the key packing being unambiguous for
all identifiers; but `(id1 << 32) | id2` is ambiguous as soon as an
identifier reaches `2 ^ 32` — packing `(0, 2^32)` and `(1, 0)` produces the
same key, and unpacking returns `(1, 0)` for both. -/
theorem pack_ambiguous_beyond_32_bits :
    pack 0 (2 ^ 32) = pack 1 0 ∧ ((0 : Nat), (2 ^ 32 : Nat)) ≠ ((1 : Nat), (0 : Nat)) ∧
    unpack (pack 0 (2 ^ 32)) = (1, 0) := by
  refine ⟨by decide, by simp, by decide⟩

/-- C8 amended: the build performs no vocabulary-size check and never fails;
ambiguous packed keys are avoided only when every identifier fits in 32 bits,
in which case packing distinct 2-token contexts of the corpus always yields
distinct keys. -/
theorem no_overflow_check_pack_lossless (t : List Triplet)
    (hN : (id_to_word t).length ≤ 2 ^ 32)
    (trip trip' : Triplet) (ht : trip ∈ t) (ht' : trip' ∈ t)
    (hne : (word_to_id t trip.1, word_to_id t trip.2.1) ≠
      (word_to_id t trip'.1, word_to_id t trip'.2.1)) :
    pack (word_to_id t trip.1) (word_to_id t trip.2.1) ≠
      pack (word_to_id t trip'.1) (word_to_id t trip'.2.1) := by
  intro he
  have htw := tripletWord_mem_id_to_word ht
  have htw' := tripletWord_mem_id_to_word ht'
  have h := pack_inj
    (lt_of_lt_of_le (word_to_id_lt htw.2.1) hN)
    (lt_of_lt_of_le (word_to_id_lt htw'.2.1) hN) he
  exact hne (Prod.ext h.1 h.2)

/-- Witness for C8's amended statement: two distinct contexts of the
demonstration corpus receive distinct packed keys. -/
theorem no_overflow_check_pack_lossless_witness :
    ((id_to_word demoTriplets).length ≤ 2 ^ 32) ∧
    (("cat", "sat", LINK_TOKEN_CT) ∈ demoTriplets) ∧
    ((BOS, "hi", LINK_TOKEN_RC) ∈ demoTriplets) ∧
    ((word_to_id demoTriplets "cat", word_to_id demoTriplets "sat") ≠
      (word_to_id demoTriplets BOS, word_to_id demoTriplets "hi")) ∧
    pack (word_to_id demoTriplets "cat") (word_to_id demoTriplets "sat") ≠
      pack (word_to_id demoTriplets BOS) (word_to_id demoTriplets "hi") :=
  ⟨by decide, by decide, by decide, by decide,
   no_overflow_check_pack_lossless demoTriplets (by decide)
     ("cat", "sat", LINK_TOKEN_CT) (BOS, "hi", LINK_TOKEN_RC)
     (by decide) (by decide) (by decide)⟩
